import Mathlib

/-!
Verification of the matching core of the arayanoen-site FAQ bot
(Cloudflare Pages Functions).  JavaScript strings are embedded as lists of
characters (`Str`); each definition below is a direct translation of the
corresponding function in `functions/webhook/faq-bot.js` or of the cited
variant of `functions/webhook/line.js`.
-/

/-- JavaScript strings, embedded as lists of Unicode characters. -/
abbrev Str := List Char

/-- The character class matched by the JavaScript regex escape `\s`
(whitespace and line terminators, including the BOM). -/
def jsWsChars : Str :=
  ['\t', '\n', '\x0b', '\x0c', '\r', ' ', '\u00A0', '\u1680',
   '\u2000', '\u2001', '\u2002', '\u2003', '\u2004', '\u2005', '\u2006',
   '\u2007', '\u2008', '\u2009', '\u200A', '\u2028', '\u2029', '\u202F',
   '\u205F', '\u3000', '\uFEFF']

/-- Whether a character is JavaScript whitespace (`\s`). -/
def isWs (c : Char) : Bool := jsWsChars.contains c

/-- The punctuation and bracket characters stripped by `normalizeJa`, i.e.
the non-whitespace part of the character class in
`replace(/[！!？?。、．，,・･「」『』【】［］\[\]\(\)（）\s]/g, "")`. -/
def strippedPunct : Str :=
  ['！', '!', '？', '?', '。', '、', '．', '，', ',', '・', '･',
   '「', '」', '『', '』', '【', '】', '［', '］', '[', ']',
   '(', ')', '（', '）']

/-- Whether `normalizeJa` deletes this character. -/
def isStripped (c : Char) : Bool := strippedPunct.contains c || isWs c

/-- Case mapping pairs of `String.prototype.toLowerCase`, restricted to the
ASCII and fullwidth Latin capital letters (the only cased alphabets this
codebase's data exercises); all other characters are left unchanged. -/
def lowerPairs : List (Char × Char) :=
  [('A', 'a'), ('B', 'b'), ('C', 'c'), ('D', 'd'), ('E', 'e'), ('F', 'f'),
   ('G', 'g'), ('H', 'h'), ('I', 'i'), ('J', 'j'), ('K', 'k'), ('L', 'l'),
   ('M', 'm'), ('N', 'n'), ('O', 'o'), ('P', 'p'), ('Q', 'q'), ('R', 'r'),
   ('S', 's'), ('T', 't'), ('U', 'u'), ('V', 'v'), ('W', 'w'), ('X', 'x'),
   ('Y', 'y'), ('Z', 'z'), ('Ａ', 'ａ'), ('Ｂ', 'ｂ'), ('Ｃ', 'ｃ'), ('Ｄ', 'ｄ'),
   ('Ｅ', 'ｅ'), ('Ｆ', 'ｆ'), ('Ｇ', 'ｇ'), ('Ｈ', 'ｈ'), ('Ｉ', 'ｉ'), ('Ｊ', 'ｊ'),
   ('Ｋ', 'ｋ'), ('Ｌ', 'ｌ'), ('Ｍ', 'ｍ'), ('Ｎ', 'ｎ'), ('Ｏ', 'ｏ'), ('Ｐ', 'ｐ'),
   ('Ｑ', 'ｑ'), ('Ｒ', 'ｒ'), ('Ｓ', 'ｓ'), ('Ｔ', 'ｔ'), ('Ｕ', 'ｕ'), ('Ｖ', 'ｖ'),
   ('Ｗ', 'ｗ'), ('Ｘ', 'ｘ'), ('Ｙ', 'ｙ'), ('Ｚ', 'ｚ')]

/-- Per-character model of `toLowerCase` (see `lowerPairs`). -/
def jsToLower (c : Char) : Char :=
  match lowerPairs.find? (fun p => p.1 == c) with
  | some p => p.2
  | none => c

/-- Model of `String.prototype.trim`: drop whitespace from both ends. -/
def jsTrim (s : Str) : Str :=
  ((s.dropWhile isWs).reverse.dropWhile isWs).reverse

/-- `normalizeJa` from `faq-bot.js` (identical in every variant):
lower-case, delete punctuation/brackets/whitespace, then trim. -/
def normalizeJa (s : Str) : Str :=
  jsTrim ((s.map jsToLower).filter (fun c => !(isStripped c)))

/-- Model of `String.prototype.includes`: substring containment (a prefix
match at some position of the haystack). -/
def jsIncludes : Str → Str → Bool
  | [], needle => needle.isPrefixOf []
  | c :: t, needle => needle.isPrefixOf (c :: t) || jsIncludes t needle

/-- `isPrefixOf` agrees with the existence of a completing suffix. -/
theorem prefixOfIff {l m : Str} : l.isPrefixOf m = true ↔ ∃ t, m = l ++ t := by
  induction l generalizing m with
  | nil => simp [List.isPrefixOf]
  | cons c t ih =>
    cases m with
    | nil =>
      simp [List.isPrefixOf]
    | cons d u =>
      rw [List.isPrefixOf]
      constructor
      · intro h
        rw [Bool.and_eq_true, beq_iff_eq] at h
        obtain ⟨rfl, h2⟩ := h
        obtain ⟨s, rfl⟩ := ih.mp h2
        exact ⟨s, rfl⟩
      · intro h
        obtain ⟨s, hs⟩ := h
        rw [List.cons_append] at hs
        cases hs
        rw [Bool.and_eq_true, beq_iff_eq]
        exact ⟨rfl, ih.mpr ⟨s, rfl⟩⟩

/-- A prefix is no longer than the whole. -/
theorem prefixOfLength {l m : Str} (h : l.isPrefixOf m = true) :
    l.length ≤ m.length := by
  obtain ⟨t, rfl⟩ := prefixOfIff.mp h
  simp

/-- The query bigram list built by the scorers: `slice(i, i + 2)` for each
`i` in `[0, length - 1)`. -/
def bigramsOf (s : Str) : List Str :=
  (List.range (s.length - 1)).map (fun i => (s.drop i).take 2)

/-- `bigramSimilarity` from the `line.js` variant with scores in `[0, 1]`
(the `MIN_FAQ_SCORE` variant): shared bigrams of the normalized strings over
the larger normalized length minus one.  The JS `Set` of query bigrams is
modelled by the bigram list, whose membership coincides with the set's. -/
def bigramSimilarity (a b : Str) : ℚ :=
  let na := normalizeJa a
  let nb := normalizeJa b
  if na.isEmpty || nb.isEmpty then 0
  else if na = nb then 1
  else
    let grams := bigramsOf na
    if grams.isEmpty then 0
    else
      let hit := (bigramsOf nb).countP (fun g => grams.contains g)
      let denom := max (na.length - 1) (nb.length - 1)
      (hit : ℚ) / (denom : ℚ)

/-- A FAQ row as built by `loadFaqCsv` in `faq-bot.js`. -/
structure FaqItem where
  answer : Str
  visibility : Str
  joined : Str
deriving DecidableEq, Repr

/-- `scoreFaqItem` from `faq-bot.js`: the number of query bigrams contained
in the normalized row text (containment check for one-character queries). -/
def scoreFaqItem (item : FaqItem) (expandedText : Str) : Nat :=
  let queryNorm := normalizeJa expandedText
  if queryNorm.isEmpty then 0
  else
    let targetNorm := normalizeJa item.joined
    if targetNorm.isEmpty then 0
    else if queryNorm.length = 1 then
      (if jsIncludes targetNorm queryNorm then 1 else 0)
    else (bigramsOf queryNorm).countP (fun bg => jsIncludes targetNorm bg)

/-- The quote-aware CSV scanner shared by every `loadFaqCsv` variant,
written with the same state as the JS `while` loop: `inQuote`, the field
accumulator, the current row and the finished rows.  The JS lookahead
`text[i + 1]` becomes a two-character pattern. -/
def parseCsvGo : Str → Bool → Str → List Str → List (List Str) → List (List Str)
  | [], _, field, row, rows => rows ++ [row ++ [field]]
  | '"' :: '"' :: rest, true, field, row, rows =>
    parseCsvGo rest true (field ++ ['"']) row rows
  | '"' :: rest, true, field, row, rows => parseCsvGo rest false field row rows
  | c :: rest, true, field, row, rows =>
    parseCsvGo rest true (field ++ [c]) row rows
  | '"' :: rest, false, field, row, rows => parseCsvGo rest true field row rows
  | ',' :: rest, false, field, row, rows =>
    parseCsvGo rest false [] (row ++ [field]) rows
  | '\r' :: '\n' :: rest, false, field, row, rows =>
    parseCsvGo rest false [] [] (rows ++ [row ++ [field]])
  | '\r' :: rest, false, field, row, rows =>
    parseCsvGo rest false [] [] (rows ++ [row ++ [field]])
  | '\n' :: rest, false, field, row, rows =>
    parseCsvGo rest false [] [] (rows ++ [row ++ [field]])
  | c :: rest, false, field, row, rows =>
    parseCsvGo rest false (field ++ [c]) row rows

/-- The CSV parse performed inside `loadFaqCsv`, including the final
`row.push(field); rows.push(row)` after the loop. -/
def parseCsv (text : Str) : List (List Str) :=
  parseCsvGo text false [] [] []

/-- `h.trim().toLowerCase()`, as applied to header cells and visibility
cells. -/
def trimLower (s : Str) : Str := (jsTrim s).map jsToLower

/-- `header.findIndex(h => h === name)` for an already-lowercase `name`,
with `none` playing the role of `-1`. -/
def headerIdxOf (header : List Str) (name : Str) : Option Nat :=
  header.findIdx? (fun h => h == name)

/-- Length is not increased by `dropWhile`. -/
theorem dropWhileLenLe (p : Char → Bool) (l : Str) :
    (l.dropWhile p).length ≤ l.length := by
  induction l with
  | nil => simp [List.dropWhile]
  | cons c t ih =>
    rw [List.dropWhile]
    cases h : p c
    · simp
    · exact Nat.le_succ_of_le ih

/-- Model of `String.prototype.replace(/\s+/g, " ")`: collapse every run of
whitespace to a single space (no trimming); a whitespace character is
dropped when the next character continues the run and otherwise becomes
the single space of its run. -/
def collapseWs : Str → Str
  | [] => []
  | [c] => if isWs c then [' '] else [c]
  | c :: d :: t =>
    if isWs c then
      (if isWs d then collapseWs (d :: t) else ' ' :: collapseWs (d :: t))
    else c :: collapseWs (d :: t)

/-- The string `"public"` used by the visibility filters. -/
def pubStr : Str := ("public").toList

/-- `loadFaqCsv` from `faq-bot.js`, lines 124-200, minus the fetch: the
function below receives the already-fetched CSV body.  Header row split
off, `visibility` column located by name (default `"public"` when absent or
when the cell is empty), `answer` column by name with the legacy fallback
index 3, rows filtered to public visibility and non-empty answer. -/
def loadFaqCsv (text : Str) : List FaqItem :=
  let rows := parseCsv text
  if rows.length ≤ 1 then []
  else
    let header := (rows.headD []).map trimLower
    let body := rows.tail
    let vIdx := headerIdxOf header (("visibility").toList)
    let aIdx := (headerIdxOf header (("answer").toList)).getD 3
    (body.map (fun r =>
      let cols := r.map jsTrim
      let visibility :=
        match vIdx with
        | some vi =>
          if vi < cols.length then
            (if trimLower (cols.getD vi []) = [] then pubStr
             else trimLower (cols.getD vi []))
          else pubStr
        | none => pubStr
      let answer := if aIdx < cols.length then jsTrim (cols.getD aIdx []) else []
      let joined := collapseWs (List.intercalate [' '] cols)
      FaqItem.mk answer visibility joined)).filter
        (fun x => x.visibility == pubStr && !(x.answer.isEmpty))

/-- A FAQ row as built by the `loadFaqCsv` variant of `line.js` (the
header-name-resolving variant around lines 785-847). -/
structure LineItem where
  question : Str
  answer : Str
  source : Str
  keywords : Str
  visibility : Str
deriving DecidableEq, Repr

/-- `header.findIndex` with the JS `-1` sentinel kept as an integer, as the
`line.js` variant uses it for `maxIdx` arithmetic. -/
def idxZ (header : List Str) (name : Str) : Int :=
  match header.findIdx? (fun h => h == name) with
  | some i => (i : Int)
  | none => -1

/-- `loadFaqCsv` from the `line.js` variant at lines 785-847 (fetch
removed): all five columns located by name, rows shorter than `maxIdx + 1`
dropped, and the filter keeps exactly the rows whose (trimmed, lowercased)
visibility cell reads `"public"` — with no condition on `answer`. -/
def loadFaqCsvLine (text : Str) : List LineItem :=
  let rows := parseCsv text
  let header := (rows.headD []).map trimLower
  let body := rows.tail
  let qIdx :=
    if idxZ header (("question").toList) ≠ -1 then
      idxZ header (("question").toList)
    else idxZ header (("category_or_question").toList)
  let aIdx := idxZ header (("answer").toList)
  let sIdx := idxZ header (("source_url_or_note").toList)
  let kIdx :=
    if idxZ header (("keywords(optional)").toList) ≠ -1 then
      idxZ header (("keywords(optional)").toList)
    else idxZ header (("keywords").toList)
  let vIdx := idxZ header (("visibility").toList)
  let maxIdx := max qIdx (max aIdx (max sIdx (max kIdx vIdx)))
  ((body.filter (fun r => maxIdx < (r.length : Int))).map (fun r =>
    LineItem.mk
      (if 0 ≤ qIdx then jsTrim (r.getD qIdx.toNat []) else [])
      (if 0 ≤ aIdx then jsTrim (r.getD aIdx.toNat []) else [])
      (if 0 ≤ sIdx then jsTrim (r.getD sIdx.toNat []) else [])
      (if 0 ≤ kIdx then jsTrim (r.getD kIdx.toNat []) else [])
      (if 0 ≤ vIdx then trimLower (r.getD vIdx.toNat []) else pubStr))).filter
    (fun x => x.visibility == pubStr)

/-- `SYNONYM_GROUPS` from `faq-bot.js` / `line.js`. -/
def SYNONYM_GROUPS : List (List Str) :=
  [[("開業").toList, ("創業").toList],
   [("送料").toList, ("配送料").toList, ("配送費").toList]]

/-- The inner loop of `expandWithSynonyms` for one hit group: append every
term not yet contained in the accumulating result, space-separated. -/
def appendGroup (result : Str) (group : List Str) : Str :=
  group.foldl
    (fun res w => if jsIncludes res w then res else res ++ ' ' :: w) result

/-- `expandWithSynonyms` from `faq-bot.js`: for each group whose terms hit
the unexpanded original text, append the missing terms of that group. -/
def expandWithSynonyms (text : Str) : Str :=
  if text.isEmpty then []
  else
    SYNONYM_GROUPS.foldl
      (fun result group =>
        if group.any (fun w => jsIncludes text w) then appendGroup result group
        else result)
      text

/-- Case-insensitive search for the first occurrence of `needle`: returns
the text before the match and the text after it. -/
def breakCI (needle : Str) : Str → Option (Str × Str)
  | [] =>
    if (needle.map jsToLower).isPrefixOf ([] : Str) then some ([], [])
    else none
  | c :: t =>
    if (needle.map jsToLower).isPrefixOf ((c :: t).map jsToLower) then
      some ([], (c :: t).drop needle.length)
    else (breakCI needle t).map (fun pr => (c :: pr.1, pr.2))

/-- A successful `breakCI` splits the length of the haystack. -/
theorem breakCI_length (needle : Str) :
    ∀ hay pr, breakCI needle hay = some pr →
      hay.length = pr.1.length + needle.length + pr.2.length := by
  intro hay
  induction hay with
  | nil =>
    intro pr h
    rw [breakCI] at h
    by_cases hp : (needle.map jsToLower).isPrefixOf ([] : Str)
    · rw [if_pos hp] at h
      have hn : needle = [] := by
        cases needle with
        | nil => rfl
        | cons a b => simp [List.isPrefixOf] at hp
      cases h
      simp [hn]
    · rw [if_neg hp] at h
      cases h
  | cons c t ih =>
    intro pr h
    rw [breakCI] at h
    by_cases hp : (needle.map jsToLower).isPrefixOf ((c :: t).map jsToLower)
    · rw [if_pos hp] at h
      have hlen : needle.length ≤ (c :: t).length := by
        have := prefixOfLength hp
        simpa using this
      cases h
      simp only [List.length_drop, List.length_nil, List.length_cons]
      simp only [List.length_cons] at hlen
      omega
    · rw [if_neg hp] at h
      cases hfind : breakCI needle t with
      | none => rw [hfind] at h; cases h
      | some pr0 =>
        rw [hfind] at h
        cases h
        have := ih pr0 hfind
        simp [this]
        omega

/-- Fuel-driven worker for `removeBlocksCI`; every recursive call strictly
shrinks the text (the match consumes the opener and the closer), so fuel
`s.length + 1` never runs out. -/
def removeBlocksFuel (openT closeT : Str) : Nat → Str → Str
  | 0, s => s
  | fuel + 1, s =>
    match breakCI openT s with
    | none => s
    | some pr =>
      match breakCI closeT pr.2 with
      | none => s
      | some pr2 => pr.1 ++ removeBlocksFuel openT closeT fuel pr2.2

/-- Model of one global, case-insensitive, lazy block deletion such as
`replace(/<script[\s\S]*?<\/script>/gi, "")`: each match runs from an
occurrence of `openT` to the nearest following `closeT`; an opener with no
closer is left in place (the regex then has no further matches). -/
def removeBlocksCI (openT closeT : Str) (s : Str) : Str :=
  removeBlocksFuel openT closeT (s.length + 1) s

/-- Split at the first `'>'` character (for the tag-stripping regex). -/
def gtSplit : Str → Option (Str × Str)
  | [] => none
  | c :: t =>
    if c = '>' then some ([], t)
    else (gtSplit t).map (fun pr => (c :: pr.1, pr.2))

/-- A successful `gtSplit` splits the length of the string. -/
theorem gtSplit_length :
    ∀ s pr, gtSplit s = some pr → s.length = pr.1.length + 1 + pr.2.length := by
  intro s
  induction s with
  | nil => intro pr h; cases h
  | cons c t ih =>
    intro pr h
    rw [gtSplit] at h
    by_cases hc : c = '>'
    · rw [if_pos hc] at h
      cases h
      simp
      omega
    · rw [if_neg hc] at h
      cases hfind : gtSplit t with
      | none => rw [hfind] at h; cases h
      | some pr0 =>
        rw [hfind] at h
        cases h
        have := ih pr0 hfind
        simp [this]
        omega

/-- Fuel-driven worker for `stripTags`; every step consumes at least one
character, so fuel `s.length + 1` never runs out. -/
def stripTagsFuel : Nat → Str → Str
  | 0, s => s
  | _ + 1, [] => []
  | fuel + 1, c :: t =>
    if c = '<' then
      match gtSplit t with
      | some pr =>
        if pr.1.isEmpty then c :: stripTagsFuel fuel t
        else ' ' :: stripTagsFuel fuel pr.2
      | none => c :: stripTagsFuel fuel t
    else c :: stripTagsFuel fuel t

/-- Model of `replace(/<[^>]+>/g, " ")`: every `'<'` followed (after at
least one intervening non-`'>'` character) by a `'>'` is replaced, together
with everything up to that `'>'`, by one space. -/
def stripTags (s : Str) : Str :=
  stripTagsFuel (s.length + 1) s

/-- Fuel-driven worker for `replaceAllCI`; every match consumes the
(non-empty) needle, so fuel `s.length + 1` never runs out. -/
def replaceAllFuel (needle repl : Str) : Nat → Str → Str
  | 0, s => s
  | fuel + 1, s =>
    match breakCI needle s with
    | none => s
    | some pr => pr.1 ++ repl ++ replaceAllFuel needle repl fuel pr.2

/-- Model of a global case-insensitive literal replacement such as
`replace(/&amp;/gi, "&")`; the replacement text is not rescanned. -/
def replaceAllCI (needle repl : Str) (s : Str) : Str :=
  replaceAllFuel needle repl (s.length + 1) s

/-- `htmlToText` from `faq-bot.js`: drop script and style blocks, turn the
remaining tags into spaces, decode the four handled entities, collapse
whitespace, trim. -/
def htmlToText (html : Str) : Str :=
  jsTrim (collapseWs
    (replaceAllCI (("&gt;").toList) ['>']
      (replaceAllCI (("&lt;").toList) ['<']
        (replaceAllCI (("&amp;").toList) ['&']
          (replaceAllCI (("&nbsp;").toList) [' ']
            (stripTags
              (removeBlocksCI (("<style").toList) (("</style>").toList)
                (removeBlocksCI (("<script").toList) (("</script>").toList)
                  html))))))))

/-- A separator of the `ALLOW_URLS` split regex `/[\s,]+/`. -/
def isSep (c : Char) : Bool := isWs c || c = ','

/-- `env.ALLOW_URLS.split(/[\s,]+/).map(u => u.trim()).filter(Boolean)`:
the maximal runs of non-separator characters (the split pieces carry no
whitespace, so the trim is the identity on them, and `filter(Boolean)`
drops exactly the empty pieces at the ends). -/
def splitAllowGo (acc : Str) : Str → List Str
  | [] => if acc.isEmpty then [] else [acc]
  | c :: t =>
    if isSep c then
      (if acc.isEmpty then splitAllowGo [] t else acc :: splitAllowGo [] t)
    else splitAllowGo (acc ++ [c]) t

def splitAllow (s : Str) : List Str := splitAllowGo [] s

/-- The answer record returned by `findAnswerFromPages`. -/
structure PageAnswer where
  text : Str
  url : Str
deriving DecidableEq, Repr

/-- The canned text returned with a page hit in `faq-bot.js`. -/
def pageFoundText : Str :=
  ("この内容については、こちらのページをご覧ください。").toList

/-- The per-page bigram count of `findAnswerFromPages`. -/
def pageScore (bigrams : List Str) (pageNorm : Str) : Nat :=
  bigrams.countP (fun bg => jsIncludes pageNorm bg)

/-- One iteration of the `findAnswerFromPages` loop.  The fetch oracle
returns `none` for the three swallowed failure modes (fetch threw, non-ok
status, unreadable body) and `some body` for a successful fetch. -/
def pageStep (fetch : Str → Option Str) (bigrams : List Str)
    (st : Option Str × Nat) (url : Str) : Option Str × Nat :=
  match fetch url with
  | none => st
  | some html =>
    let pageNorm := normalizeJa (htmlToText html)
    if pageNorm.isEmpty then st
    else
      let score := pageScore bigrams pageNorm
      if st.2 < score then (some url, score) else st

/-- The body of `findAnswerFromPages` from `faq-bot.js` after the
allow-list string has been split. -/
def pagesResolve (fetch : Str → Option Str) (allowList : List Str)
    (expandedText : Str) : Option PageAnswer :=
  if allowList.isEmpty then none
  else
    let queryNorm := normalizeJa expandedText
    if queryNorm.isEmpty || queryNorm.length < 2 then none
    else
      let st := allowList.foldl (pageStep fetch (bigramsOf queryNorm)) (none, 0)
      match st.1 with
      | none => none
      | some u => if st.2 = 0 then none else some (PageAnswer.mk pageFoundText u)

/-- `findAnswerFromPages` from `faq-bot.js`, lines 251-306, with the fetch
abstracted into an oracle. -/
def findAnswerFromPages (fetch : Str → Option Str) (allowUrls : Str)
    (expandedText : Str) : Option PageAnswer :=
  pagesResolve fetch (splitAllow allowUrls) expandedText

/-- The configuration and remote world a `findAnswer` call sees: the
fetched CSV body, the raw `ALLOW_URLS` string and the page-fetch oracle. -/
structure Env where
  csvText : Str
  allowUrls : Str
  fetch : Str → Option Str

/-- The structured answer built by `findAnswer` in `faq-bot.js`
(`matched_question` is omitted: it is the constant `null`). -/
structure Answer where
  text : Str
  url : Option Str
  matched : Bool
  score : Int
deriving DecidableEq, Repr

/-- The fixed fallback message. -/
def fallbackText : Str :=
  ("該当する回答が見つかりませんでした。よろしければ、キーワードを変えてもう一度お試しください。担当者への取次も可能です。").toList

/-- The FAQ acceptance threshold of `faq-bot.js`:
`Math.ceil(Math.max(queryNorm.length - 1, 1) * 0.8)` with the constant
`0.8`, written as the exact rational ceiling `⌈4 m / 5⌉`. -/
def faqThreshold (expanded : Str) : Nat :=
  (4 * (max ((normalizeJa expanded).length - 1) 1) + 4) / 5

/-- One iteration of the best-row loop in `findAnswer`: strictly higher
scores replace the current best (`bestScore` starts at `-1`). -/
def bestFaqStep (expanded : Str) (st : Option FaqItem × Int) (it : FaqItem) :
    Option FaqItem × Int :=
  if st.2 < (scoreFaqItem it expanded : Int) then
    (some it, (scoreFaqItem it expanded : Int))
  else st

/-- The best-row loop of `findAnswer`: fold the rows with `bestFaqStep`
from the initial state `(null, -1)`. -/
def faqBest (env : Env) (expanded : Str) : Option FaqItem × Int :=
  (loadFaqCsv env.csvText).foldl (bestFaqStep expanded) (none, -1)

/-- The tail of `findAnswer` once the FAQ branch has been rejected: a page
hit or the fixed fallback, both carrying `bestScore`. -/
def pagesOutcome (env : Env) (expanded : Str) (sc : Int) : Answer :=
  match findAnswerFromPages env.fetch env.allowUrls expanded with
  | some pa => Answer.mk pa.text (some pa.url) false sc
  | none => Answer.mk fallbackText none false sc

/-- `findAnswer` from `faq-bot.js`, lines 315-365, with the two fetches
abstracted: the CSV body is taken from `env.csvText` (the claim quantifies
over successfully fetched datasets) and pages from `env.fetch`. -/
def findAnswer (env : Env) (userText : Str) : Answer :=
  match (faqBest env (expandWithSynonyms userText)).1 with
  | some best =>
    if (faqThreshold (expandWithSynonyms userText) : Int) ≤
        (faqBest env (expandWithSynonyms userText)).2 ∧
        0 < (faqBest env (expandWithSynonyms userText)).2 then
      Answer.mk best.answer none true (faqBest env (expandWithSynonyms userText)).2
    else
      pagesOutcome env (expandWithSynonyms userText)
        (faqBest env (expandWithSynonyms userText)).2
  | none =>
    pagesOutcome env (expandWithSynonyms userText)
      (faqBest env (expandWithSynonyms userText)).2

/-- Every lowercase image in `lowerPairs` is a fixed point of
`jsToLower`. -/
theorem lowerPairsFixed : ∀ p ∈ lowerPairs, jsToLower p.2 = p.2 := by decide

/-- The lowercase map is idempotent. -/
theorem jsToLowerIdem (c : Char) : jsToLower (jsToLower c) = jsToLower c := by
  cases h : lowerPairs.find? (fun p => p.1 == c) with
  | none =>
    have h1 : jsToLower c = c := by rw [jsToLower, h]
    rw [h1, h1]
  | some p =>
    have h1 : jsToLower c = p.2 := by rw [jsToLower, h]
    rw [h1]
    exact lowerPairsFixed p (List.mem_of_find?_eq_some h)

/-- Members of `dropWhile p l` are members of `l`. -/
theorem memOfMemDropWhile {p : Char → Bool} {l : Str} {a : Char}
    (h : a ∈ l.dropWhile p) : a ∈ l := by
  induction l with
  | nil => simpa [List.dropWhile] using h
  | cons c t ih =>
    rw [List.dropWhile] at h
    cases hp : p c
    · rw [hp] at h
      exact h
    · rw [hp] at h
      exact List.mem_cons_of_mem c (ih h)

/-- Members of `jsTrim l` are members of `l`. -/
theorem memOfMemJsTrim {l : Str} {a : Char} (h : a ∈ jsTrim l) : a ∈ l := by
  unfold jsTrim at h
  rw [List.mem_reverse] at h
  have h2 := memOfMemDropWhile h
  rw [List.mem_reverse] at h2
  exact memOfMemDropWhile h2

/-- A map whose function fixes every member is the identity. -/
theorem mapEqSelf {f : Char → Char} {l : Str} (h : ∀ c ∈ l, f c = c) :
    l.map f = l := by
  induction l with
  | nil => rfl
  | cons c t ih =>
    rw [List.map_cons, h c (by simp), ih (fun x hx => h x (by simp [hx]))]

/-- A filter whose predicate holds on every member is the identity. -/
theorem filterEqSelf {p : Char → Bool} {l : Str} (h : ∀ c ∈ l, p c = true) :
    l.filter p = l := by
  induction l with
  | nil => rfl
  | cons c t ih =>
    rw [List.filter_cons_of_pos (h c (by simp)),
      ih (fun x hx => h x (by simp [hx]))]

/-- `dropWhile` is the identity when the predicate fails on every member. -/
theorem dropWhileEqSelf {p : Char → Bool} {l : Str}
    (h : ∀ c ∈ l, p c = false) : l.dropWhile p = l := by
  cases l with
  | nil => rfl
  | cons c t =>
    rw [List.dropWhile, h c (by simp)]

/-- `jsTrim` is the identity on whitespace-free text. -/
theorem jsTrimEqSelf {l : Str} (h : ∀ c ∈ l, isWs c = false) : jsTrim l = l := by
  unfold jsTrim
  rw [dropWhileEqSelf h,
    dropWhileEqSelf (fun c hc => h c (List.mem_reverse.mp hc)),
    List.reverse_reverse]

/-- Every character of a normalized string is a lowercase image and
survives the strip filter. -/
theorem memNormalize {s : Str} {c : Char} (h : c ∈ normalizeJa s) :
    (∃ d, c = jsToLower d) ∧ isStripped c = false := by
  unfold normalizeJa at h
  have h1 := memOfMemJsTrim h
  rw [List.mem_filter] at h1
  obtain ⟨h2, h3⟩ := h1
  rw [List.mem_map] at h2
  obtain ⟨d, _, hd⟩ := h2
  exact ⟨⟨d, hd.symm⟩, by simpa using h3⟩

/-- C7: the normalizer is idempotent — `normalizeJa (normalizeJa x)`
always equals `normalizeJa x`, and the empty (or JS-falsy, coerced to
empty) input yields the empty string. -/
theorem normalizeJa_idempotent (s : Str) :
    normalizeJa (normalizeJa s) = normalizeJa s ∧ normalizeJa ([] : Str) = [] := by
  constructor
  · have hmap : (normalizeJa s).map jsToLower = normalizeJa s :=
      mapEqSelf (fun c hc => by
        obtain ⟨⟨d, hd⟩, _⟩ := memNormalize hc
        rw [hd]
        exact jsToLowerIdem d)
    have hfil : (normalizeJa s).filter (fun c => !(isStripped c)) = normalizeJa s :=
      filterEqSelf (fun c hc => by
        have := (memNormalize hc).2
        simp [this])
    have htrim : jsTrim (normalizeJa s) = normalizeJa s :=
      jsTrimEqSelf (fun c hc => by
        have h2 := (memNormalize hc).2
        unfold isStripped at h2
        rw [Bool.or_eq_false_iff] at h2
        exact h2.2)
    show jsTrim (((normalizeJa s).map jsToLower).filter (fun c => !(isStripped c))) = normalizeJa s
    rw [hmap, hfil, htrim]
  · rfl

/-- `countP` never exceeds the length. -/
theorem countPLeLength (p : Str → Bool) (l : List Str) : l.countP p ≤ l.length := by
  induction l with
  | nil => simp
  | cons c t ih =>
    rw [List.countP_cons]
    by_cases hc : p c = true
    · simp [hc]
      omega
    · rw [Bool.not_eq_true] at hc
      simp [hc]
      omega

/-- `countP` is monotone in the predicate (over the members). -/
theorem countPMono {p q : Str → Bool} {l : List Str}
    (h : ∀ a ∈ l, p a = true → q a = true) : l.countP p ≤ l.countP q := by
  induction l with
  | nil => simp
  | cons c t ih =>
    rw [List.countP_cons, List.countP_cons]
    have ht := ih (fun a ha hp => h a (by simp [ha]) hp)
    by_cases hc : p c = true
    · have hq := h c (by simp) hc
      simp [hc, hq]
      omega
    · rw [Bool.not_eq_true] at hc
      simp [hc]
      omega

/-- `countP` reaches the length when the predicate holds on every
member. -/
theorem countPEqLength {p : Str → Bool} {l : List Str}
    (h : ∀ a ∈ l, p a = true) : l.countP p = l.length := by
  induction l with
  | nil => simp
  | cons c t ih =>
    rw [List.countP_cons]
    simp [h c (by simp), ih (fun a ha => h a (by simp [ha]))]

/-- The bigram list has one entry per window. -/
theorem bigramsOfLength (s : Str) : (bigramsOf s).length = s.length - 1 := by
  simp [bigramsOf]

/-- C2 (amended): the similarity is always within `[0, 1]`; it is `1` on
identical inputs whose *normalized* form is non-empty (as well as whenever
the two normalized forms are equal and non-empty), and an empty argument on
either side yields `0`.  (The unamended claim asked for `similarity(a,a) =
1` for every non-empty `a`; that fails when normalization empties `a`.) -/
theorem bigramSimilarityEq (a b : Str) : bigramSimilarity a b =
    (if (normalizeJa a).isEmpty || (normalizeJa b).isEmpty then 0
     else if normalizeJa a = normalizeJa b then 1
     else if (bigramsOf (normalizeJa a)).isEmpty then 0
     else
       (((bigramsOf (normalizeJa b)).countP
          (fun g => (bigramsOf (normalizeJa a)).contains g) : Nat) : ℚ) /
        ((max ((normalizeJa a).length - 1) ((normalizeJa b).length - 1) : Nat) : ℚ)) :=
  rfl

theorem bigramSimilarity_bounded : ∀ a b : Str,
    (0 ≤ bigramSimilarity a b ∧ bigramSimilarity a b ≤ 1) ∧
    (normalizeJa a ≠ [] → bigramSimilarity a a = 1) ∧
    (bigramSimilarity [] b = 0 ∧ bigramSimilarity a [] = 0) ∧
    (normalizeJa a ≠ [] → normalizeJa a = normalizeJa b →
      bigramSimilarity a b = 1) := by
  intro a b
  refine ⟨?_, ?_, ⟨?_, ?_⟩, ?_⟩
  · rw [bigramSimilarityEq]
    split
    · norm_num
    · split
      · norm_num
      · split
        · norm_num
        · constructor
          · apply div_nonneg <;> exact Nat.cast_nonneg _
          · apply div_le_one_of_le
            · rw [Nat.cast_le]
              calc (bigramsOf (normalizeJa b)).countP _
                  ≤ (bigramsOf (normalizeJa b)).length := countPLeLength _ _
                _ = (normalizeJa b).length - 1 := bigramsOfLength _
                _ ≤ max ((normalizeJa a).length - 1) ((normalizeJa b).length - 1) :=
                    Nat.le_max_right _ _
            · exact Nat.cast_nonneg _
  · intro h
    rw [bigramSimilarityEq]
    rw [if_neg (by simp [List.isEmpty_iff, h]), if_pos rfl]
  · have h0 : normalizeJa ([] : Str) = [] := rfl
    rw [bigramSimilarityEq]
    rw [if_pos (by simp [h0])]
  · have h0 : normalizeJa ([] : Str) = [] := rfl
    rw [bigramSimilarityEq]
    rw [if_pos (by simp [h0])]
  · intro h1 h2
    rw [bigramSimilarityEq]
    rw [if_neg (by simp [List.isEmpty_iff, h1, ← h2]), if_pos h2]

/-- C2 witness: the theorem applied at `a = b = "ab"` and at the pair
`("ab", "xy")`. -/
theorem bigramSimilarity_bounded_w :
    bigramSimilarity (("ab").toList) (("ab").toList) = 1 ∧
    0 ≤ bigramSimilarity (("ab").toList) (("xy").toList) := by
  constructor
  · exact (bigramSimilarity_bounded (("ab").toList) (("ab").toList)).2.1 (by decide)
  · exact ((bigramSimilarity_bounded (("ab").toList) (("xy").toList)).1).1

/-- C2 counterexample: `"!"` is a non-empty string, yet
`bigramSimilarity "!" "!"` is `0`, not `1`, because normalization strips
the text to the empty string before the equality short-circuit. -/
theorem bigramSimilarity_self_not_one_cx :
    (['!'] : Str) ≠ [] ∧ bigramSimilarity ['!'] ['!'] ≠ 1 ∧
      bigramSimilarity ['!'] ['!'] = 0 := by decide

/-- `jsIncludes` agrees with substring containment. -/
theorem jsIncludesIff {hay needle : Str} :
    jsIncludes hay needle = true ↔ ∃ p s, hay = p ++ needle ++ s := by
  induction hay with
  | nil =>
    rw [jsIncludes]
    constructor
    · intro h
      obtain ⟨t, ht⟩ := prefixOfIff.mp h
      obtain ⟨hn, hs⟩ := List.append_eq_nil.mp ht.symm
      exact ⟨[], [], by simp [hn]⟩
    · intro h
      obtain ⟨p, s, hps⟩ := h
      obtain ⟨hp, hs⟩ := List.append_eq_nil.mp hps.symm
      obtain ⟨hpn, hn⟩ := List.append_eq_nil.mp hp
      apply prefixOfIff.mpr
      exact ⟨[], by simp [hn]⟩
  | cons c t ih =>
    rw [jsIncludes]
    simp only [Bool.or_eq_true]
    constructor
    · intro h
      rcases h with h | h
      · obtain ⟨s, hs⟩ := prefixOfIff.mp h
        exact ⟨[], s, by simpa using hs⟩
      · obtain ⟨p, s, hps⟩ := ih.mp h
        exact ⟨c :: p, s, by simp [hps]⟩
    · intro h
      obtain ⟨p, s, hps⟩ := h
      cases p with
      | nil =>
        left
        apply prefixOfIff.mpr
        exact ⟨s, by simpa using hps⟩
      | cons d p2 =>
        right
        apply ih.mpr
        refine ⟨p2, s, ?_⟩
        rw [List.cons_append, List.cons_append] at hps
        injection hps with h1 h2

/-- An empty haystack contains only the empty needle. -/
theorem jsIncludesNil {needle : Str} (h : jsIncludes [] needle = true) :
    needle = [] := by
  obtain ⟨p, s, hps⟩ := jsIncludesIff.mp h
  obtain ⟨hp, _⟩ := List.append_eq_nil.mp hps.symm
  exact (List.append_eq_nil.mp hp).2

/-- A haystack containing a non-empty needle is non-empty. -/
theorem jsIncludesNeNil {hay needle : Str} (h : jsIncludes hay needle = true)
    (hne : needle ≠ []) : hay ≠ [] := by
  intro hcon
  rw [hcon] at h
  exact hne (jsIncludesNil h)

/-- Every member of `bigramsOf s` is a non-empty contiguous piece of
`s`. -/
theorem bigramMem {s bg : Str} (h : bg ∈ bigramsOf s) :
    (∃ p t, s = p ++ bg ++ t) ∧ bg ≠ [] := by
  unfold bigramsOf at h
  rw [List.mem_map] at h
  obtain ⟨i, hi, hbg⟩ := h
  rw [List.mem_range] at hi
  have h2 : bg ++ (s.drop i).drop 2 = s.drop i := by
    rw [← hbg]
    exact List.take_append_drop 2 _
  constructor
  · refine ⟨s.take i, (s.drop i).drop 2, ?_⟩
    conv_lhs => rw [← List.take_append_drop i s]
    rw [List.append_assoc, h2]
  · have hlen : bg.length = 2 := by
      rw [← hbg, List.length_take, List.length_drop]
      omega
    intro hnil
    rw [hnil] at hlen
    simp at hlen

/-- Containment of a string yields containment of each of its pieces. -/
theorem jsIncludesTrans {hay mid bg : Str} (h1 : jsIncludes hay mid = true)
    (h2 : ∃ p t, mid = p ++ bg ++ t) : jsIncludes hay bg = true := by
  obtain ⟨p1, s1, e1⟩ := jsIncludesIff.mp h1
  obtain ⟨p2, s2, e2⟩ := h2
  apply jsIncludesIff.mpr
  refine ⟨p1 ++ p2, s2 ++ s1, ?_⟩
  rw [e1, e2]
  simp

/-- `countP` vanishes when the predicate fails on every member. -/
theorem countPEqZero {p : Str → Bool} {l : List Str}
    (h : ∀ a ∈ l, p a = false) : l.countP p = 0 := by
  induction l with
  | nil => simp
  | cons c t ih =>
    rw [List.countP_cons, h c (by simp), ih (fun a ha => h a (by simp [ha]))]
    simp

/-- The branch structure of `scoreFaqItem`, written out. -/
theorem scoreFaqItemEq (item : FaqItem) (expandedText : Str) :
    scoreFaqItem item expandedText =
      (if (normalizeJa expandedText).isEmpty then 0
       else if (normalizeJa item.joined).isEmpty then 0
       else if (normalizeJa expandedText).length = 1 then
         (if jsIncludes (normalizeJa item.joined) (normalizeJa expandedText)
          then 1 else 0)
       else (bigramsOf (normalizeJa expandedText)).countP
         (fun bg => jsIncludes (normalizeJa item.joined) bg)) := rfl

/-- C3 (amended): for the bigram-count scorer `scoreFaqItem`, monotonicity
holds for every query whose normalized form has at least two characters —
a target containing every query bigram the other target contains never
scores lower — and a target containing the whole normalized query scores
at least as high as any target, for queries of any length.  (The unamended
claim, quantified over all queries, fails on one-character normalized
queries, whose score is a containment check on the single character while
the bigram set is empty.) -/
theorem scoreFaqItem_monotone :
    (∀ (q : Str) (A B : FaqItem), 2 ≤ (normalizeJa q).length →
      (∀ bg ∈ bigramsOf (normalizeJa q),
        jsIncludes (normalizeJa B.joined) bg = true →
        jsIncludes (normalizeJa A.joined) bg = true) →
      scoreFaqItem B q ≤ scoreFaqItem A q) ∧
    (∀ (q : Str) (A B : FaqItem),
      jsIncludes (normalizeJa A.joined) (normalizeJa q) = true →
      scoreFaqItem B q ≤ scoreFaqItem A q) := by
  constructor
  · intro q A B hlen hsub
    have hq : ¬((normalizeJa q).isEmpty = true) := by
      rw [List.isEmpty_iff]
      intro h
      rw [h] at hlen
      simp at hlen
    have h1 : ¬((normalizeJa q).length = 1) := by omega
    rw [scoreFaqItemEq, scoreFaqItemEq, if_neg hq, if_neg hq]
    by_cases hB : (normalizeJa B.joined).isEmpty = true
    · rw [if_pos hB]
      exact Nat.zero_le _
    · rw [if_neg hB, if_neg h1]
      by_cases hA : (normalizeJa A.joined).isEmpty = true
      · rw [if_pos hA]
        have hzero : (bigramsOf (normalizeJa q)).countP
            (fun bg => jsIncludes (normalizeJa B.joined) bg) = 0 := by
          apply countPEqZero
          intro bg hbg
          by_contra hcon
          rw [Bool.not_eq_false] at hcon
          have hin := hsub bg hbg hcon
          rw [List.isEmpty_iff.mp hA] at hin
          exact (bigramMem hbg).2 (jsIncludesNil hin)
        rw [hzero]
      · rw [if_neg hA, if_neg h1]
        exact countPMono (fun bg hbg hp => hsub bg hbg hp)
  · intro q A B hfull
    by_cases hq : (normalizeJa q).isEmpty = true
    · rw [scoreFaqItemEq, scoreFaqItemEq, if_pos hq, if_pos hq]
    · have hqne : normalizeJa q ≠ [] := by
        intro h
        exact hq (by simp [h])
      have hA : ¬((normalizeJa A.joined).isEmpty = true) := by
        rw [List.isEmpty_iff]
        exact jsIncludesNeNil hfull hqne
      rw [scoreFaqItemEq, scoreFaqItemEq, if_neg hq, if_neg hq, if_neg hA]
      by_cases hB : (normalizeJa B.joined).isEmpty = true
      · rw [if_pos hB]
        exact Nat.zero_le _
      · rw [if_neg hB]
        by_cases h1 : (normalizeJa q).length = 1
        · rw [if_pos h1, if_pos h1, if_pos hfull]
          split <;> omega
        · rw [if_neg h1, if_neg h1]
          have hAfull : (bigramsOf (normalizeJa q)).countP
              (fun bg => jsIncludes (normalizeJa A.joined) bg) =
              (bigramsOf (normalizeJa q)).length :=
            countPEqLength (fun bg hbg =>
              jsIncludesTrans hfull (bigramMem hbg).1)
          rw [hAfull]
          exact countPLeLength _ _

/-- C3 witness: both parts of the theorem applied at concrete rows. -/
theorem scoreFaqItem_monotone_w :
    scoreFaqItem (FaqItem.mk [] [] (("xabc").toList)) (("abc").toList) ≤
      scoreFaqItem (FaqItem.mk [] [] (("abcy").toList)) (("abc").toList) ∧
    scoreFaqItem (FaqItem.mk [] [] (("q").toList)) (("ab").toList) ≤
      scoreFaqItem (FaqItem.mk [] [] (("zaby").toList)) (("ab").toList) := by
  constructor
  · exact scoreFaqItem_monotone.1 (("abc").toList)
      (FaqItem.mk [] [] (("abcy").toList))
      (FaqItem.mk [] [] (("xabc").toList)) (by decide) (by decide)
  · exact scoreFaqItem_monotone.2 (("ab").toList)
      (FaqItem.mk [] [] (("zaby").toList))
      (FaqItem.mk [] [] (("q").toList)) (by decide)

/-- C3 counterexample: with the one-character query `"a"`, the target
`"b"` contains every query bigram that the target `"a"` contains (there
are none), yet it scores strictly lower, refuting the unamended claim. -/
theorem scoreFaqItem_monotone_cx :
    ((bigramsOf (normalizeJa ['a'])).all
      (fun bg => !(jsIncludes (normalizeJa (FaqItem.mk [] [] ['a']).joined) bg) ||
        jsIncludes (normalizeJa (FaqItem.mk [] [] ['b']).joined) bg) = true) ∧
    scoreFaqItem (FaqItem.mk [] [] ['b']) ['a'] <
      scoreFaqItem (FaqItem.mk [] [] ['a']) ['a'] := by decide

/-- `loadFaqCsv` always ends in the public-and-answered filter. -/
theorem loadFaqCsvShape (text : Str) : ∃ l : List FaqItem,
    loadFaqCsv text =
      l.filter (fun x => x.visibility == pubStr && !(x.answer.isEmpty)) := by
  simp only [loadFaqCsv]
  split
  · exact ⟨[], rfl⟩
  · exact ⟨_, rfl⟩

/-- C4 (amended): in `faq-bot.js`, every row returned by `loadFaqCsv` has
visibility exactly `"public"` (the stored value, lower-cased and defaulted
to `"public"` when the column is absent or the cell empty) and a non-empty
answer; a `private` row is dropped regardless of content, an upper-case
`PUBLIC` cell is kept, and an absent visibility column defaults to public.
(The unamended claim also covered the `line.js` loader variant, which
keeps rows with empty answers — see the counterexample.) -/
theorem loadFaqCsv_retention :
    (∀ (text : Str) (it : FaqItem), it ∈ loadFaqCsv text →
      it.visibility = pubStr ∧ it.answer ≠ []) ∧
    loadFaqCsv (("question,answer,visibility\nq,a,private").toList) = [] ∧
    (loadFaqCsv (("question,answer,visibility\nq,a,PUBLIC").toList)).map
      FaqItem.answer = [("a").toList] ∧
    (loadFaqCsv (("question,answer\nq,a").toList)).map
      FaqItem.visibility = [pubStr] := by
  refine ⟨?_, by decide, by decide, by decide⟩
  intro text it hmem
  obtain ⟨l, hl⟩ := loadFaqCsvShape text
  rw [hl, List.mem_filter] at hmem
  have h2 := hmem.2
  rw [Bool.and_eq_true, beq_iff_eq] at h2
  refine ⟨h2.1, ?_⟩
  have h3 := h2.2
  rw [Bool.not_eq_true'] at h3
  intro hcon
  rw [hcon] at h3
  simp at h3

/-- C4 witness: the retention invariant applied to the row produced from a
two-column sheet. -/
theorem loadFaqCsv_retention_w :
    (FaqItem.mk (("a").toList) pubStr (("q a").toList)).visibility = pubStr ∧
    (FaqItem.mk (("a").toList) pubStr (("q a").toList)).answer ≠ [] :=
  loadFaqCsv_retention.1 (("question,answer\nq,a").toList)
    (FaqItem.mk (("a").toList) pubStr (("q a").toList)) (by decide)

/-- C4 counterexample: the `line.js` loader variant returns the row of
`question,answer,visibility` / `q1,,public` even though its answer is
empty, so the claim's non-empty-answer invariant fails for that cited
`loadFaqCsv`.  (The same variant also drops, rather than defaults, rows
whose visibility cell is empty.) -/
theorem loadFaqCsv_retention_cx :
    loadFaqCsvLine (("question,answer,visibility\nq1,,public").toList) =
      [LineItem.mk (("q1").toList) [] [] [] pubStr] ∧
    (LineItem.mk (("q1").toList) [] [] [] pubStr).answer = [] := by decide

/-- C5: the quote-aware CSV parse — a comma inside a quoted field does not
split, a doubled quote is one literal quote, and CRLF, LF and CR all
terminate rows. -/
theorem parseCsv_quoted_fields :
    parseCsv (("\"a,b\",c").toList) = [[("a,b").toList, ("c").toList]] ∧
    parseCsv (("a\r\nb").toList) = [[("a").toList], [("b").toList]] ∧
    parseCsv (("a\nb").toList) = [[("a").toList], [("b").toList]] ∧
    parseCsv (("a\rb").toList) = [[("a").toList], [("b").toList]] ∧
    parseCsv (("\"x\"\"y\",z").toList) = [[("x\"y").toList, ("z").toList]] := by
  decide

/-- Unfolding of `appendGroup` on a group head. -/
theorem appendGroupCons (res w : Str) (gs : List Str) :
    appendGroup res (w :: gs) =
      appendGroup (if jsIncludes res w then res else res ++ ' ' :: w) gs := rfl

/-- Containment survives appending text on the right. -/
theorem jsIncludesExt {res w : Str} (t : Str) (h : jsIncludes res w = true) :
    jsIncludes (res ++ t) w = true := by
  obtain ⟨p, s, hps⟩ := jsIncludesIff.mp h
  apply jsIncludesIff.mpr
  refine ⟨p, s ++ t, ?_⟩
  rw [hps]
  simp

/-- `appendGroup` only ever appends to its accumulator. -/
theorem appendGroupExt (g : List Str) :
    ∀ res : Str, ∃ t, appendGroup res g = res ++ t := by
  induction g with
  | nil => intro res; exact ⟨[], by simp [appendGroup]⟩
  | cons w gs ih =>
    intro res
    rw [appendGroupCons]
    by_cases hw : jsIncludes res w = true
    · rw [if_pos hw]
      exact ih res
    · rw [if_neg hw]
      obtain ⟨t, ht⟩ := ih (res ++ ' ' :: w)
      refine ⟨' ' :: w ++ t, ?_⟩
      rw [ht, List.append_assoc]

/-- Containment of a term survives an `appendGroup` pass. -/
theorem appendGroupKeep (g : List Str) (res w : Str)
    (h : jsIncludes res w = true) :
    jsIncludes (appendGroup res g) w = true := by
  obtain ⟨t, ht⟩ := appendGroupExt g res
  rw [ht]
  exact jsIncludesExt t h

/-- After an `appendGroup` pass, every term of the group is contained in
the accumulator. -/
theorem appendGroupAll (g : List Str) :
    ∀ res w, w ∈ g → jsIncludes (appendGroup res g) w = true := by
  induction g with
  | nil =>
    intro res w hw
    simp at hw
  | cons v gs ih =>
    intro res w hw
    rw [appendGroupCons]
    rcases List.mem_cons.mp hw with rfl | hw2
    · apply appendGroupKeep
      by_cases hv : jsIncludes res w = true
      · rw [if_pos hv]
        exact hv
      · rw [if_neg hv]
        apply jsIncludesIff.mpr
        exact ⟨res ++ [' '], [], by simp⟩
    · exact ih _ w hw2

/-- The group fold of `expandWithSynonyms` only appends. -/
theorem expandFoldExt (base : Str) (groups : List (List Str)) :
    ∀ res : Str, ∃ t,
      groups.foldl
        (fun result group =>
          if group.any (fun w => jsIncludes base w) then appendGroup result group
          else result) res = res ++ t := by
  induction groups with
  | nil => intro res; exact ⟨[], by simp⟩
  | cons g gs ih =>
    intro res
    rw [List.foldl_cons]
    by_cases hg : g.any (fun w => jsIncludes base w) = true
    · rw [if_pos hg]
      obtain ⟨t1, ht1⟩ := appendGroupExt g res
      obtain ⟨t2, ht2⟩ := ih (appendGroup res g)
      refine ⟨t1 ++ t2, ?_⟩
      rw [ht2, ht1, List.append_assoc]
    · rw [if_neg hg]
      exact ih res

/-- Containment of a term survives the group fold. -/
theorem expandFoldKeep (base : Str) (groups : List (List Str)) (res w : Str)
    (h : jsIncludes res w = true) :
    jsIncludes
      (groups.foldl
        (fun result group =>
          if group.any (fun v => jsIncludes base v) then appendGroup result group
          else result) res) w = true := by
  obtain ⟨t, ht⟩ := expandFoldExt base groups res
  rw [ht]
  exact jsIncludesExt t h

/-- A group hit by the base text has all its terms contained after the
fold. -/
theorem expandFoldHit (base : Str) (groups : List (List Str)) :
    ∀ (res : Str) (g : List Str), g ∈ groups →
      g.any (fun w => jsIncludes base w) = true →
      ∀ w ∈ g,
        jsIncludes
          (groups.foldl
            (fun result group =>
              if group.any (fun v => jsIncludes base v) then
                appendGroup result group
              else result) res) w = true := by
  induction groups with
  | nil =>
    intro res g hg
    simp at hg
  | cons g0 gs ih =>
    intro res g hg hany w hw
    rw [List.foldl_cons]
    rcases List.mem_cons.mp hg with rfl | hg2
    · rw [if_pos hany]
      exact expandFoldKeep base gs _ w (appendGroupAll g res w hw)
    · exact ih _ g hg2 hany w hw

/-- With no group hit, the fold is the identity. -/
theorem expandFoldNone (base : Str) (groups : List (List Str))
    (h : ∀ g ∈ groups, ∀ w ∈ g, jsIncludes base w = false) :
    ∀ res : Str,
      groups.foldl
        (fun result group =>
          if group.any (fun v => jsIncludes base v) then appendGroup result group
          else result) res = res := by
  induction groups with
  | nil => intro res; simp
  | cons g0 gs ih =>
    intro res
    rw [List.foldl_cons]
    have hg0 : g0.any (fun v => jsIncludes base v) = false := by
      rw [List.any_eq_false]
      intro w hw
      simp [h g0 (by simp) w hw]
    rw [hg0]
    simp only [Bool.false_eq_true, if_false]
    exact ih (fun g hg w hw => h g (by simp [hg]) w hw) res

/-- C6: synonym expansion is extensive — the original text is a prefix of
the expansion; every term of a group hit by the *unexpanded* original text
is contained in the expansion; and when no group term occurs in the
original text the expansion is the original text unchanged. -/
theorem expandWithSynonyms_extensive :
    (∀ text : Str, ∃ t, expandWithSynonyms text = text ++ t) ∧
    (∀ (text : Str) (g : List Str), g ∈ SYNONYM_GROUPS →
      (∃ w ∈ g, jsIncludes text w = true) →
      ∀ w ∈ g, jsIncludes (expandWithSynonyms text) w = true) ∧
    (∀ text : Str, (∀ g ∈ SYNONYM_GROUPS, ∀ w ∈ g, jsIncludes text w = false) →
      expandWithSynonyms text = text) := by
  refine ⟨?_, ?_, ?_⟩
  · intro text
    unfold expandWithSynonyms
    by_cases he : text.isEmpty = true
    · rw [if_pos he]
      exact ⟨[], by simp [List.isEmpty_iff.mp he]⟩
    · rw [if_neg he]
      exact expandFoldExt text SYNONYM_GROUPS text
  · intro text g hg hhit w hw
    unfold expandWithSynonyms
    by_cases he : text.isEmpty = true
    · exfalso
      obtain ⟨v, hv, hvin⟩ := hhit
      rw [List.isEmpty_iff.mp he] at hvin
      have hvnil := jsIncludesNil hvin
      have hne : ∀ g ∈ SYNONYM_GROUPS, ∀ v ∈ g, v ≠ [] := by decide
      exact hne g hg v hv hvnil
    · rw [if_neg he]
      apply expandFoldHit text SYNONYM_GROUPS text g hg ?_ w hw
      rw [List.any_eq_true]
      obtain ⟨v, hv, hvin⟩ := hhit
      exact ⟨v, hv, hvin⟩
  · intro text hnone
    unfold expandWithSynonyms
    by_cases he : text.isEmpty = true
    · rw [if_pos he, List.isEmpty_iff.mp he]
    · rw [if_neg he]
      exact expandFoldNone text SYNONYM_GROUPS hnone text

/-- C6 witness: the three parts applied to the query `"送料について"`,
which hits the second synonym group. -/
theorem expandWithSynonyms_extensive_w :
    jsIncludes (expandWithSynonyms (("送料について").toList))
      (("配送料").toList) = true ∧
    expandWithSynonyms (("hello").toList) = ("hello").toList := by
  constructor
  · exact expandWithSynonyms_extensive.2.1 (("送料について").toList)
      [("送料").toList, ("配送料").toList, ("配送費").toList] (by decide)
      ⟨("送料").toList, by decide, by decide⟩ (("配送料").toList) (by decide)
  · exact expandWithSynonyms_extensive.2.2 (("hello").toList) (by decide)

/-- The branch structure of `pagesResolve`, written out. -/
theorem pagesResolveEq (fetch : Str → Option Str) (allowList : List Str)
    (e : Str) : pagesResolve fetch allowList e =
    (if allowList.isEmpty then none
     else if (normalizeJa e).isEmpty || (normalizeJa e).length < 2 then none
     else
       match (allowList.foldl (pageStep fetch (bigramsOf (normalizeJa e)))
           (none, 0)).1 with
       | none => none
       | some u =>
         if (allowList.foldl (pageStep fetch (bigramsOf (normalizeJa e)))
             (none, 0)).2 = 0 then none
         else some (PageAnswer.mk pageFoundText u)) := rfl

/-- A URL whose fetch fails contributes nothing to the page loop. -/
theorem pageStepSkip (fetch : Str → Option Str) (bigrams : List Str)
    (st : Option Str × Nat) (u : Str) (hu : fetch u = none) :
    pageStep fetch bigrams st u = st := by
  unfold pageStep
  rw [hu]

/-- C8: a fetch failure for one allow-listed URL only skips that URL — the
document lookup over an allow-list containing the failing URL returns
exactly what it returns over the allow-list with that URL removed, and in
particular never aborts. -/
theorem findAnswerFromPages_skip_failed (fetch : Str → Option Str)
    (s s' u q : Str) (l1 l2 : List Str)
    (h1 : splitAllow s = l1 ++ u :: l2) (h2 : splitAllow s' = l1 ++ l2)
    (hu : fetch u = none) :
    findAnswerFromPages fetch s q = findAnswerFromPages fetch s' q := by
  unfold findAnswerFromPages
  rw [h1, h2, pagesResolveEq, pagesResolveEq]
  have hfold : ∀ bigrams st,
      (l1 ++ u :: l2).foldl (pageStep fetch bigrams) st =
      (l1 ++ l2).foldl (pageStep fetch bigrams) st := by
    intro bigrams st
    rw [List.foldl_append, List.foldl_cons, pageStepSkip fetch bigrams _ u hu,
      ← List.foldl_append]
  by_cases hl : (l1 ++ l2).isEmpty = true
  · rw [if_pos hl]
    obtain ⟨hl1, hl2⟩ := List.append_eq_nil.mp (List.isEmpty_iff.mp hl)
    rw [hl1, hl2]
    rw [if_neg (by simp)]
    split
    · rfl
    · rw [List.nil_append, List.foldl_cons, List.foldl_nil,
        pageStepSkip fetch _ _ u hu]
  · rw [if_neg (by simp), if_neg hl, hfold]

/-- C8 witness: with `fetch` failing on `"a"` and succeeding on `"b"`, the
lookup over `"a b"` equals the lookup over `"b"`. -/
theorem findAnswerFromPages_skip_failed_w :
    findAnswerFromPages
        (fun v => if v = ("b").toList then some (("ab").toList) else none)
        (("a b").toList) (("ab").toList) =
      findAnswerFromPages
        (fun v => if v = ("b").toList then some (("ab").toList) else none)
        (("b").toList) (("ab").toList) :=
  findAnswerFromPages_skip_failed
    (fun v => if v = ("b").toList then some (("ab").toList) else none)
    (("a b").toList) (("b").toList) (("a").toList) (("ab").toList)
    [] [("b").toList] (by decide) (by decide) (by decide)

/-- The best URL held by the page loop is either inherited from the
initial state or one of the processed URLs. -/
theorem pagesFoldUrl (fetch : Str → Option Str) (bigrams : List Str) :
    ∀ (l : List Str) (st : Option Str × Nat),
      (l.foldl (pageStep fetch bigrams) st).1 = st.1 ∨
      ∃ u ∈ l, (l.foldl (pageStep fetch bigrams) st).1 = some u := by
  intro l
  induction l with
  | nil =>
    intro st
    left
    rfl
  | cons u rest ih =>
    intro st
    rw [List.foldl_cons]
    have hstep : (pageStep fetch bigrams st u).1 = st.1 ∨
        (pageStep fetch bigrams st u).1 = some u := by
      unfold pageStep
      cases fetch u
      · left
        rfl
      · dsimp only
        split
        · left
          rfl
        · split
          · right
            rfl
          · left
            rfl
    rcases ih (pageStep fetch bigrams st u) with h | h
    · rcases hstep with h2 | h2
      · left
        rw [h, h2]
      · right
        exact ⟨u, by simp, by rw [h, h2]⟩
    · obtain ⟨v, hv, hfold⟩ := h
      right
      exact ⟨v, by simp [hv], hfold⟩

/-- A successful `pagesResolve` cites one of the allow-listed URLs. -/
theorem pagesResolveUrl {fetch : Str → Option Str} {allowList : List Str}
    {e : Str} {pa : PageAnswer}
    (h : pagesResolve fetch allowList e = some pa) : pa.url ∈ allowList := by
  rw [pagesResolveEq] at h
  split at h
  · cases h
  · split at h
    · cases h
    · rcases pagesFoldUrl fetch (bigramsOf (normalizeJa e)) allowList (none, 0)
        with h2 | h2
      · rw [h2] at h
        cases h
      · obtain ⟨u, hu, h3⟩ := h2
        rw [h3] at h
        dsimp only at h
        by_cases hz : (allowList.foldl
            (pageStep fetch (bigramsOf (normalizeJa e))) (none, 0)).2 = 0
        · rw [if_pos hz] at h
          cases h
        · rw [if_neg hz] at h
          cases h
          exact hu

/-- The page-or-fallback tail returns either no URL or an allow-listed
one. -/
theorem pagesOutcomeUrl (env : Env) (e : Str) (sc : Int) :
    (pagesOutcome env e sc).url = none ∨
    ∃ u, (pagesOutcome env e sc).url = some u ∧
      u ∈ splitAllow env.allowUrls := by
  unfold pagesOutcome
  cases hp : findAnswerFromPages env.fetch env.allowUrls e with
  | none =>
    left
    rfl
  | some pa =>
    right
    refine ⟨pa.url, rfl, ?_⟩
    unfold findAnswerFromPages at hp
    exact pagesResolveUrl hp

/-- C9: every structured `url` returned by `findAnswer` is either absent
(FAQ answers and the fallback) or one of the entries parsed from the
`ALLOW_URLS` configuration string by the split on whitespace and commas. -/
theorem findAnswer_url_provenance (csv allow : Str) (fetch : Str → Option Str)
    (q : Str) :
    (findAnswer (Env.mk csv allow fetch) q).url = none ∨
    ∃ u, (findAnswer (Env.mk csv allow fetch) q).url = some u ∧
      u ∈ splitAllow allow := by
  unfold findAnswer
  cases hst : (faqBest (Env.mk csv allow fetch) (expandWithSynonyms q)).1 with
  | none =>
    exact pagesOutcomeUrl (Env.mk csv allow fetch) (expandWithSynonyms q) _
  | some best =>
    dsimp only
    split
    · left
      rfl
    · exact pagesOutcomeUrl (Env.mk csv allow fetch) (expandWithSynonyms q) _

/-- The best-row fold either returns its initial state or pairs some row
of the list with that row's score. -/
theorem bestFoldSpec (e : Str) : ∀ (l : List FaqItem) (st : Option FaqItem × Int),
    l.foldl (bestFaqStep e) st = st ∨
    ∃ it ∈ l, (l.foldl (bestFaqStep e) st).1 = some it ∧
      (l.foldl (bestFaqStep e) st).2 = (scoreFaqItem it e : Int) := by
  intro l
  induction l with
  | nil =>
    intro st
    left
    rfl
  | cons it0 rest ih =>
    intro st
    rw [List.foldl_cons]
    rcases ih (bestFaqStep e st it0) with h | h
    · rw [h]
      unfold bestFaqStep
      by_cases hlt : st.2 < (scoreFaqItem it0 e : Int)
      · right
        refine ⟨it0, by simp, ?_, ?_⟩
        · rw [if_pos hlt]
        · rw [if_pos hlt]
      · left
        rw [if_neg hlt]
    · obtain ⟨it, hit, h1, h2⟩ := h
      right
      exact ⟨it, by simp [hit], h1, h2⟩

/-- The best score never decreases along the fold. -/
theorem bestFoldMono (e : Str) : ∀ (l : List FaqItem) (st : Option FaqItem × Int),
    st.2 ≤ (l.foldl (bestFaqStep e) st).2 := by
  intro l
  induction l with
  | nil =>
    intro st
    exact le_refl _
  | cons it0 rest ih =>
    intro st
    rw [List.foldl_cons]
    refine le_trans ?_ (ih (bestFaqStep e st it0))
    unfold bestFaqStep
    by_cases hlt : st.2 < (scoreFaqItem it0 e : Int)
    · rw [if_pos hlt]
      exact le_of_lt hlt
    · rw [if_neg hlt]

/-- The final best score dominates the score of every row in the list. -/
theorem bestFoldGe (e : Str) : ∀ (l : List FaqItem) (st : Option FaqItem × Int)
    (it : FaqItem), it ∈ l →
    (scoreFaqItem it e : Int) ≤ (l.foldl (bestFaqStep e) st).2 := by
  intro l
  induction l with
  | nil =>
    intro st it hit
    simp at hit
  | cons it0 rest ih =>
    intro st it hit
    rw [List.foldl_cons]
    rcases List.mem_cons.mp hit with rfl | hmem
    · refine le_trans ?_ (bestFoldMono e rest (bestFaqStep e st it))
      unfold bestFaqStep
      by_cases hlt : st.2 < (scoreFaqItem it e : Int)
      · rw [if_pos hlt]
      · rw [if_neg hlt]
        exact le_of_not_lt hlt
    · exact ih (bestFaqStep e st it0) it hmem

/-- The FAQ acceptance threshold is at least one. -/
theorem faqThresholdPos (e : Str) : 1 ≤ faqThreshold e := by
  unfold faqThreshold
  have h1 : 1 ≤ max ((normalizeJa e).length - 1) 1 := le_max_right _ _
  omega

/-- C10: a non-empty question whose synonym-expanded text normalizes to
the empty string always receives the fixed fallback text with no URL —
every FAQ row scores `0`, below the threshold (which is at least `1`), and
the page lookup rejects normalized queries shorter than two characters. -/
theorem findAnswer_degenerate_query (env : Env) (q : Str) (hq : q ≠ [])
    (h : normalizeJa (expandWithSynonyms q) = []) :
    (findAnswer env q).text = fallbackText ∧ (findAnswer env q).url = none := by
  have hsc : (faqBest env (expandWithSynonyms q)).2 ≤ 0 := by
    rcases bestFoldSpec (expandWithSynonyms q) (loadFaqCsv env.csvText)
        (none, -1) with h2 | h2
    · unfold faqBest
      rw [h2]
      norm_num
    · obtain ⟨it, _, _, h3⟩ := h2
      unfold faqBest
      rw [h3, scoreFaqItemEq, if_pos (by simp [h])]
      norm_num
  have hpages : findAnswerFromPages env.fetch env.allowUrls
      (expandWithSynonyms q) = none := by
    unfold findAnswerFromPages
    rw [pagesResolveEq]
    split
    · rfl
    · rw [if_pos (by simp [h])]
  have hpo : ∀ sc, pagesOutcome env (expandWithSynonyms q) sc =
      Answer.mk fallbackText none false sc := by
    intro sc
    unfold pagesOutcome
    rw [hpages]
  unfold findAnswer
  cases hst : (faqBest env (expandWithSynonyms q)).1 with
  | none =>
    rw [hpo]
    exact ⟨rfl, rfl⟩
  | some best =>
    dsimp only
    rw [if_neg (by
      intro hcon
      exact absurd (lt_of_lt_of_le hcon.2 hsc) (by norm_num))]
    rw [hpo]
    exact ⟨rfl, rfl⟩

/-- C10 witness: the theorem applied to the punctuation-only question
`"!"` against a non-empty FAQ table and a non-empty allow-list. -/
theorem findAnswer_degenerate_query_w :
    (findAnswer (Env.mk (("question,answer\nq,a").toList) (("u").toList)
        (fun _ => some (("q a").toList))) ['!']).text = fallbackText ∧
    (findAnswer (Env.mk (("question,answer\nq,a").toList) (("u").toList)
        (fun _ => some (("q a").toList))) ['!']).url = none :=
  findAnswer_degenerate_query
    (Env.mk (("question,answer\nq,a").toList) (("u").toList)
      (fun _ => some (("q a").toList))) ['!'] (by decide) (by decide)

/-- C1: whenever some FAQ row's score reaches the acceptance threshold —
regardless of whether the document lookup would also succeed — the
resolver answers from the FAQ state: the returned `url` is `null`, the
answer text is the answer of a loaded FAQ row, and the page citation is
never returned; the FAQ state strictly precedes the document state. -/
theorem findAnswer_faq_first (csv allow : Str) (fetch : Str → Option Str)
    (q : Str)
    (hfaq : ∃ it ∈ loadFaqCsv csv,
      (faqThreshold (expandWithSynonyms q) : Int) ≤
        (scoreFaqItem it (expandWithSynonyms q) : Int))
    (hdoc : findAnswerFromPages fetch allow (expandWithSynonyms q) ≠ none) :
    (findAnswer (Env.mk csv allow fetch) q).url = none ∧
    (findAnswer (Env.mk csv allow fetch) q).matched = true ∧
    ∃ it ∈ loadFaqCsv csv,
      (findAnswer (Env.mk csv allow fetch) q).text = it.answer := by
  obtain ⟨it0, hmem, hge⟩ := hfaq
  have hsc : (faqThreshold (expandWithSynonyms q) : Int) ≤
      (faqBest (Env.mk csv allow fetch) (expandWithSynonyms q)).2 :=
    le_trans hge (bestFoldGe (expandWithSynonyms q) (loadFaqCsv csv)
      (none, -1) it0 hmem)
  have hpos : 0 < (faqBest (Env.mk csv allow fetch) (expandWithSynonyms q)).2 := by
    refine lt_of_lt_of_le ?_ hsc
    have := faqThresholdPos (expandWithSynonyms q)
    exact_mod_cast Nat.lt_of_lt_of_le Nat.zero_lt_one this
  rcases bestFoldSpec (expandWithSynonyms q) (loadFaqCsv csv) (none, -1)
      with h2 | h2
  · exfalso
    have : (faqBest (Env.mk csv allow fetch) (expandWithSynonyms q)).2 = -1 := by
      unfold faqBest
      rw [h2]
    rw [this] at hpos
    norm_num at hpos
  · obtain ⟨it, hitmem, h1, hsceq⟩ := h2
    unfold findAnswer
    have hst : (faqBest (Env.mk csv allow fetch) (expandWithSynonyms q)).1 =
        some it := h1
    rw [hst]
    dsimp only
    rw [if_pos ⟨hsc, hpos⟩]
    exact ⟨rfl, rfl, it, hitmem, rfl⟩

/-- C1 witness: a dataset where the row `hello,world` clears the FAQ
threshold for the query `"hello"` while the single allow-listed page would
also match; the resolver still answers `world` with no URL. -/
theorem findAnswer_faq_first_w :
    (findAnswer (Env.mk (("question,answer\nhello,world").toList)
        (("u").toList) (fun _ => some (("hello").toList)))
        (("hello").toList)).url = none ∧
    (findAnswer (Env.mk (("question,answer\nhello,world").toList)
        (("u").toList) (fun _ => some (("hello").toList)))
        (("hello").toList)).matched = true ∧
    ∃ it ∈ loadFaqCsv (("question,answer\nhello,world").toList),
      (findAnswer (Env.mk (("question,answer\nhello,world").toList)
          (("u").toList) (fun _ => some (("hello").toList)))
          (("hello").toList)).text = it.answer :=
  findAnswer_faq_first (("question,answer\nhello,world").toList)
    (("u").toList) (fun _ => some (("hello").toList)) (("hello").toList)
    ⟨FaqItem.mk (("world").toList) pubStr (("hello world").toList),
      by decide, by decide⟩
    (by decide)
